import Mathlib

set_option linter.unusedVariables false

/-!
Verification of the AI Commander editor extension
(repository `yzh503/obsidian-aicommander-plugin`).

The development shallowly embeds the plugin's core algorithms from the
current main module (the first document of `src/unnamed/part_002`):

* the streaming document writer inside `generateText` (lines 147-213),
* the insertion-point helper `getNextNewLine` (lines 215-222),
* the SSE event-buffering loop inside `generateText` (lines 157-211),
* the nearest-match selection of `findFilePath` (lines 405-451),
* the context assembly and validation prologues of `generateText`,
  `generateImage`, `generateTranscript` (lines 74-116, 244-257, 303-322),
* the search-key routing of `searchText` (lines 388-394),
* the single-flight command wrappers `commandGenerateText`,
  `commandGenerateTextWithPdf`, `commandGenerateImage`,
  `commandGenerateTranscript` (lines 482-591),
* the audio link matcher extension allow-list (lines 553-556).

JavaScript strings are modelled as `List Char` where character-level
reasoning is needed (document buffer, SSE byte stream) and as Lean
`String` elsewhere.  The Obsidian editor buffer is modelled as a list of
lines (`Doc`); `Editor.replaceRange(text, pos)` — a pure insertion of
text at a `(line, ch)` position of a line buffer — is modelled
character by character by `insertText`.
-/

namespace AICommander

/-- A document buffer: an ordered sequence of text lines, as exposed by
the Obsidian `Editor` (`getLine` / `setLine` / `replaceRange`). -/
abbrev Doc := List (List Char)

/-- Whitespace test used to model JavaScript `String.prototype.trim`
(restricted to the whitespace characters relevant to this code base). -/
def isWsChar (c : Char) : Bool :=
  c = ' ' || c = '\t' || c = '\n' || c = '\r'

/-- Models the JavaScript test `line.trim().length === 0`: a line is
blank iff all its characters are whitespace. -/
def isBlankLine (l : List Char) : Bool := l.all isWsChar

/-- Models the JavaScript test `s.trim().length === 0` on a Lean
`String`. -/
def jsTrimEmpty (s : String) : Bool := s.data.all isWsChar

/-- Split a character sequence at its newlines, mirroring the JavaScript
`content.split('\n')`: the result is always nonempty, contains no
newline characters, and has one entry more than the number of `'\n'`
characters in the input. -/
def splitNl : List Char → List (List Char)
  | [] => [[]]
  | c :: rest =>
    if c = '\n' then [] :: splitNl rest
    else
      match splitNl rest with
      | [] => [[c]]
      | h :: t => (c :: h) :: t

/-- Join lines with newlines (inverse of `splitNl`); models joining the
written lines of a document region back into one string. -/
def joinNl : List (List Char) → List Char
  | [] => []
  | [l] => l
  | l :: l' :: t => l ++ '\n' :: joinNl (l' :: t)

/-- Apply `f` to the first element of a list. -/
def modFirst {α : Type} (f : α → α) : List α → List α
  | [] => []
  | x :: xs => f x :: xs

/-- Apply `f` to the last element of a list. -/
def modLast {α : Type} (f : α → α) : List α → List α
  | [] => []
  | [x] => [f x]
  | x :: y :: t => x :: modLast f (y :: t)

/-- All elements of a list except the last one. -/
def front {α : Type} : List α → List α
  | [] => []
  | [_] => []
  | x :: y :: t => x :: front (y :: t)

/-- The last element of a list, with a default. -/
def lastGet {α : Type} : List α → α → α
  | [], d => d
  | [x], _ => x
  | _ :: y :: t, d => lastGet (y :: t) d

/-- Insert character `c` into the document at line `l`, column `ch`
(part of the model of `Editor.replaceRange`). -/
def insertCharAt : Doc → Nat → Nat → Char → Doc
  | [], _, _, _ => []
  | L :: rest, 0, ch, c => (L.take ch ++ c :: L.drop ch) :: rest
  | L :: rest, n + 1, ch, c => L :: insertCharAt rest n ch c

/-- Split line `l` of the document at column `ch` into two lines (the
effect of inserting a `'\n'`; part of the model of
`Editor.replaceRange`). -/
def splitLineAt : Doc → Nat → Nat → Doc
  | [], _, _ => []
  | L :: rest, 0, ch => L.take ch :: L.drop ch :: rest
  | L :: rest, n + 1, ch => L :: splitLineAt rest n ch

/-- One character of an insertion: a `'\n'` splits the current line at
the insertion point and moves to column 0 of the next line, any other
character is inserted in place and the column advances by one. -/
def stepIns (s : Doc × Nat × Nat) (c : Char) : Doc × Nat × Nat :=
  if c = '\n' then (splitLineAt s.1 s.2.1 s.2.2, s.2.1 + 1, 0)
  else (insertCharAt s.1 s.2.1 s.2.2 c, s.2.1, s.2.2 + 1)

/-- Model of `Editor.replaceRange(content, pos)` for a pure insertion:
insert `content` at position `(line, ch)` of the document and return
the updated document together with the position just after the inserted
text. -/
def insertText (s : Doc × Nat × Nat) (content : List Char) : Doc × Nat × Nat :=
  content.foldl stepIns s

/-- The lines that replace one line `before ++ after` of a document
when `content` is inserted between `before` and `after`: the segments
of `content`, with `before` prepended to the first segment and `after`
appended to the last one. -/
def buildLines (before content after : List Char) : List (List Char) :=
  modFirst (fun l => before ++ l) (modLast (fun l => l ++ after) (splitNl content))

/-- The cursor arithmetic of the streaming loop
(`src/unnamed/part_002` lines 197-203): after inserting `content` at
`p`, if `content.split('\n')` has a single entry the column advances by
its length, otherwise the line advances by the number of newlines and
the column becomes the length of the last entry. -/
def sourceAdvance (p : Nat × Nat) (content : List Char) : Nat × Nat :=
  let contentLines := splitNl content
  if contentLines.length = 1 then (p.1, p.2 + (contentLines.headD []).length)
  else (p.1 + contentLines.length - 1, (lastGet contentLines []).length)

/-- Position reached by inserting `content` character by character
starting from `p` (independent of the document contents). -/
def charAdvance (p : Nat × Nat) : List Char → Nat × Nat
  | [] => p
  | c :: rest =>
    if c = '\n' then charAdvance (p.1 + 1, 0) rest
    else charAdvance (p.1, p.2 + 1) rest

/-- One iteration of the streaming write loop
(`src/unnamed/part_002` lines 193-206): `editor.replaceRange(content,
cursorPos)` followed by the cursor-arithmetic update of `cursorPos`. -/
def writeFrag (s : Doc × Nat × Nat) (frag : List Char) : Doc × Nat × Nat :=
  ((insertText s frag).1, sourceAdvance s.2 frag)

/-- The streaming document writer of `generateText`
(`src/unnamed/part_002` lines 152-213), starting from the insertion
line `r` returned by `getNextNewLine`: insert one `'\n'` at `(r, 0)`,
advance to `(r + 1, 0)`, write every streamed fragment at the moving
cursor, and finally insert one trailing `'\n'` at the cursor. -/
def runStreamWriter (doc : Doc) (r : Nat) (frags : List (List Char)) : Doc :=
  let d1 := (insertText (doc, r, 0) ['\n']).1
  let s2 := frags.foldl writeFrag (d1, r + 1, 0)
  (insertText s2 ['\n']).1

/-- The insertion-point helper `getNextNewLine`
(`src/unnamed/part_002` lines 215-222): if the given line is the last
line of the document, or the following line is non-blank, insert a
`'\n'` at the end of the given line (creating a fresh empty line after
it); in all cases return `line + 1`. -/
def getNextNewLine (doc : Doc) (line : Nat) : Doc × Nat :=
  let isLastLine := line == doc.length - 1
  let nextNonBlank :=
    match doc[line + 1]? with
    | some next => !(isBlankLine next)
    | none => false
  if isLastLine || nextNonBlank then
    ((insertText (doc, line, (doc.getD line []).length) ['\n']).1, line + 1)
  else (doc, line + 1)

/-- Modelled from the spec (§4.5 step 1), for comparison with
`getNextNewLine`: "scan forward from the invocation line until a blank
line is found; if scanning reaches the last line of the document
without finding a blank line, append a new empty line and use it". -/
def scanForwardInsertionLine (doc : Doc) (line : Nat) : Nat :=
  match (doc.drop line).findIdx? (fun l => isBlankLine l) with
  | some k => line + k
  | none => doc.length

/-! ## SSE event buffering (`generateText`, lines 157-211)

The streaming read loop accumulates decoded bytes in `accumulatedText`
and repeatedly extracts the prefix before the first `"\n\n"` delimiter
as one complete server-sent event, keeping the remainder in the
accumulator.  Each extracted event is then trimmed and, when it carries
a `data:` payload, JSON-parsed; that per-event consumption does not
affect the buffering, which is what is modelled here. -/

/-- Index of the first occurrence of the two-character delimiter
`"\n\n"` in the buffer (the JavaScript `accumulatedText.indexOf('\n\n')`,
with `none` for `-1`). -/
def findDelim : List Char → Option Nat
  | [] => none
  | [_] => none
  | c₁ :: c₂ :: rest =>
    if c₁ = '\n' ∧ c₂ = '\n' then some 0
    else (findDelim (c₂ :: rest)).map (· + 1)

/-- Lower bound needed for termination of `extractEvents`. -/
theorem findDelim_some_bound :
    ∀ (buf : List Char) (i : Nat), findDelim buf = some i → i + 2 ≤ buf.length := by
  intro buf
  induction buf with
  | nil => intro i h; simp [findDelim] at h
  | cons c₁ rest ih =>
    intro i h
    match rest with
    | [] => simp [findDelim] at h
    | c₂ :: rest' =>
      rw [findDelim] at h
      split at h
      · cases h; simp
      · rcases Option.map_eq_some'.mp h with ⟨j, hj, rfl⟩
        have := ih j hj
        simp only [List.length_cons] at this ⊢
        omega

/-- The inner extraction loop of the streaming reader
(`src/unnamed/part_002` lines 168-171): while the accumulator contains
a `"\n\n"` delimiter, slice off the prefix before it as one complete
event and keep the remainder; return the list of extracted events (in
order, untrimmed) together with the final (incomplete) remainder. -/
def extractEvents (buf : List Char) : List (List Char) × List Char :=
  match h : findDelim buf with
  | none => ([], buf)
  | some i =>
    let p := extractEvents (buf.drop (i + 2))
    (buf.take i :: p.1, p.2)
termination_by buf.length
decreasing_by
  have := findDelim_some_bound buf i h
  simp [List.length_drop]
  omega

/-- One read of the streaming loop: append the decoded chunk to the
accumulator (`accumulatedText += decoder.decode(value)`) and extract
all complete events. -/
def feedStep (s : List (List Char) × List Char) (chunk : List Char) :
    List (List Char) × List Char :=
  let p := extractEvents (s.2 ++ chunk)
  (s.1 ++ p.1, p.2)

/-- Feeding the streaming reader a sequence of transport chunks
(`src/unnamed/part_002` lines 162-211, buffering part): each chunk is
appended to the accumulator, then all complete events are extracted. -/
def feedChunks (chunks : List (List Char)) : List (List Char) × List Char :=
  chunks.foldl feedStep ([], [])

/-- Reconstruction of a buffer from an extraction result: every
extracted event followed by its `"\n\n"` delimiter, then the retained
remainder. -/
def eventsJoin (p : List (List Char) × List Char) : List Char :=
  (p.1.map (fun e => e ++ ['\n', '\n'])).flatten ++ p.2

/-! ## Single-flight command wrappers (lines 482-591) -/

/-- The plugin state relevant to the single-flight guard: the
`writing` flag and the (abstract) document. -/
structure PluginState where
  writing : Bool
  doc : List String
deriving DecidableEq

/-- Outcome of one generation pipeline run, as observed by the command
wrapper's promise handlers: resolution with a resulting document, or
rejection with an error message and the (possibly partially written)
document. -/
inductive GenOutcome where
  | ok (doc : List String)
  | err (doc : List String) (msg : String)
deriving DecidableEq

/-- `commandGenerateText` (`src/unnamed/part_002` lines 482-500): if
`writing` is set, notify "Generator is already in progress." and do
nothing else; otherwise set `writing`, run the pipeline, and clear
`writing` in both the resolution and the rejection handler. -/
def commandGenerateText (st : PluginState) (gen : GenOutcome) : PluginState × String :=
  if st.writing then (st, "Generator is already in progress.")
  else
    match gen with
    | .ok d => (⟨false, d⟩, "Text completed.")
    | .err d m => (⟨false, d⟩, m)

/-- `commandGenerateTextWithPdf` (`src/unnamed/part_002` lines
502-528): resolve the PDF link first; on failure notify and leave the
flag untouched; on success check the `writing` flag (a busy flag is
thrown and caught by the outer handler, again leaving the flag
untouched), then run the pipeline, clearing the flag in both the
resolution and the rejection handler. -/
def commandGenerateTextWithPdf (st : PluginState) (findResult : Except String String)
    (gen : GenOutcome) : PluginState × String :=
  match findResult with
  | .error m => (st, m)
  | .ok _ =>
    if st.writing then (st, "Generator is already in progress.")
    else
      match gen with
      | .ok d => (⟨false, d⟩, "Text completed.")
      | .err d m => (⟨false, d⟩, m)

/-- `commandGenerateImage` (`src/unnamed/part_002` lines 530-549). -/
def commandGenerateImage (st : PluginState) (gen : GenOutcome) : PluginState × String :=
  if st.writing then (st, "Generator is already in progress.")
  else
    match gen with
    | .ok d => (⟨false, d⟩, "Image Generated.")
    | .err d m => (⟨false, d⟩, m)

/-- `commandGenerateTranscript` (`src/unnamed/part_002` lines 551-591):
resolve the audio link, check the extracted file type, check file
existence, then the `writing` flag ("Already in progress."), then run
the pipeline, clearing the flag in both handlers.  All paths before the
flag is set leave the state untouched. -/
def commandGenerateTranscript (st : PluginState) (findResult : Except String String)
    (fileTypeOk : Bool) (fileExists : Bool) (gen : GenOutcome) : PluginState × String :=
  match findResult with
  | .error m => (st, m)
  | .ok path =>
    if !fileTypeOk then (st, "No audio file found")
    else if !fileExists then (st, path ++ " does not exist")
    else if st.writing then (st, "Already in progress.")
    else
      match gen with
      | .ok d => (⟨false, d⟩, "Transcript Generated.")
      | .err d m => (⟨false, d⟩, m)

/-! ## Nearest-match link resolution (`findFilePath`, lines 405-451) -/

/-- One regex match found in the document text: its start offset and
the captured link text. -/
structure LinkMatch where
  index : Nat
  linkText : String
deriving DecidableEq

/-- Absolute distance between two offsets
(`Math.abs(matchStart - cursorOffset)`). -/
def offsetDist (a b : Nat) : Nat := ((a : Int) - (b : Int)).natAbs

/-- One step of the closest-match selection loop of `findFilePath`
(`src/unnamed/part_002` lines 420-431): replace the current closest
match when there is none yet, or when the new match's start offset is
strictly closer to the cursor offset. -/
def closestStep (cursorOffset : Nat) (closestMatch : Option LinkMatch)
    (m : LinkMatch) : Option LinkMatch :=
  match closestMatch with
  | none => some m
  | some c =>
    if offsetDist m.index cursorOffset < offsetDist c.index cursorOffset then some m
    else closestMatch

/-- The closest-match selection loop of `findFilePath`
(`src/unnamed/part_002` lines 409-433): iterate over all matches of all
matchers (in found order) and keep the match whose start offset has the
strictly smallest absolute distance to the cursor offset; on ties the
earlier match is kept. -/
def findFilePath (allMatches : List LinkMatch) (cursorOffset : Nat) : Option LinkMatch :=
  allMatches.foldl (closestStep cursorOffset) none

/-! ## Context assembly of `generateText` (lines 96-116) -/

/-- One chat message sent to the completion endpoint. -/
structure ChatMessage where
  role : String
  content : String
deriving DecidableEq

/-- The fixed search-grounding preamble of `generateText`
(`src/unnamed/part_002` line 107). -/
def searchSystemPreamble : String :=
  "As an assistant who can learn information from web search results, your task is to incorporate information from a web search result into your answers when responding to questions. Your response should include the relevant information from your knowledge and the web search result and provide the source markdown URL of the information. Please note that you should be able to handle various types of questions and search queries. Your response should also be clear and concise while incorporating all relevant information from the web search results. Here are the web search result:\n\n"

/-- JavaScript truthiness of the optional `contextPrompt` string
argument (`if (contextPrompt)`): defined and nonempty. -/
def ctxTruthy : Option String → Bool
  | none => false
  | some s => !(s == "")

/-- The context-assembly portion of `generateText`
(`src/unnamed/part_002` lines 96-116): if a context prompt is supplied
(truthy), push it as the single system message and never consult the
search engine; otherwise, if the search engine is enabled, call
`searchText` (whose serialized result or failure is the
`searchOutcome` argument — a failure is logged and generation proceeds
without search results); finally push the user prompt.  Returns the
message list together with whether `searchText` was invoked. -/
def generateTextMessages (contextPrompt : Option String) (useSearchEngine : Bool)
    (searchOutcome : Except String String) (finalPrompt : String) :
    List ChatMessage × Bool :=
  if ctxTruthy contextPrompt then
    ([⟨"system", contextPrompt.getD ""⟩, ⟨"user", finalPrompt⟩], false)
  else if useSearchEngine then
    match searchOutcome with
    | .ok results =>
      ([⟨"system", searchSystemPreamble ++ results⟩, ⟨"user", finalPrompt⟩], true)
    | .error _ => ([⟨"user", finalPrompt⟩], true)
  else ([⟨"user", finalPrompt⟩], false)

/-! ## Prompt enhancement (lines 84-94 and 253-257) -/

/-- The prompt-enhancement step of `generateText`
(`src/unnamed/part_002` lines 84-94): when Prompt Perfect is enabled,
`improvePrompt` is awaited inside a try/catch; on any failure the
original prompt is kept and generation proceeds.  The function is
total: this step can never abort text generation. -/
def generateTextFinalPrompt (usePromptPerfect : Bool)
    (improveResult : Except String String) (prompt : String) : String :=
  if usePromptPerfect then
    match improveResult with
    | .ok improved => improved
    | .error _ => prompt
  else prompt

/-- The prompt-enhancement step of `generateImage`
(`src/unnamed/part_002` lines 253-257): when Prompt Perfect is enabled,
`improvePrompt` is awaited with no try/catch, so a failure propagates
out of `generateImage` and aborts the image generation. -/
def generateImagePrompt (usePromptPerfect : Bool)
    (improveResult : Except String String) (prompt : String) : Except String String :=
  if usePromptPerfect then improveResult else .ok prompt

/-! ## Validation prologues (lines 74-82, 244-246, 303-306) -/

/-- The validation prologue of `generateText`
(`src/unnamed/part_002` lines 74-82): reject a falsy or
whitespace-only prompt, then a falsy or whitespace-only API key;
`some msg` means the call throws `msg` before any network request,
`none` means the network request proceeds. -/
def generateTextGate (prompt apiKey : String) : Option String :=
  if prompt == "" || jsTrimEmpty prompt then some "Prompt cannot be empty."
  else if apiKey == "" || jsTrimEmpty apiKey then some "OpenAI API Key is not provided."
  else none

/-- The validation prologue of `generateImage`
(`src/unnamed/part_002` lines 244-246): `prompt.length < 1` and
`apiKey.length <= 1` checks. -/
def generateImageGate (prompt apiKey : String) : Option String :=
  if prompt.length < 1 then some "Cannot find prompt."
  else if apiKey.length ≤ 1 then some "OpenAI API Key is not provided."
  else none

/-- The validation prologue of `generateTranscript`
(`src/unnamed/part_002` lines 303-306): only the API key is checked;
the audio buffer (whose byte length is the first argument) is not
inspected before the network request is issued. -/
def generateTranscriptGate (audioBufferLength : Nat) (apiKey : String) : Option String :=
  if apiKey == "" || jsTrimEmpty apiKey then some "OpenAI API Key is not provided."
  else none

/-! ## Search routing (`searchText`, lines 359-394) -/

/-- Which network search is performed by `searchText`: the Bing Web
Search API (with the configured key) or the public `www.bing.com`
endpoint (no key).  Both constructors represent an issued network
search request. -/
inductive SearchRoute where
  | withKey
  | withoutKey
deriving DecidableEq

/-- `searchText` (`src/unnamed/part_002` lines 388-394): use the keyed
API when the configured Bing key has length greater than one, and fall
back to the key-less public search otherwise.  No error is raised in
either case. -/
def searchText (bingSearchKey : String) : SearchRoute :=
  if bingSearchKey.length > 1 then .withKey else .withoutKey

/-! ## Audio link matchers (`commandGenerateTranscript`, lines 553-556) -/

/-- The extension alternation shared by the two audio link matcher
regexes of `commandGenerateTranscript`
(`src/unnamed/part_002` lines 554-555):
`(flac|m4a|mp3|mp4|mpeg|mpga|oga|ogg|wav|webm)`. -/
def audioLinkExtensions : List String :=
  ["flac", "m4a", "mp3", "mp4", "mpeg", "mpga", "oga", "ogg", "wav", "webm"]

/-- Modelled from the spec (§4.1): the extension allow-list the spec
and the claim ascribe to the audio link matchers, including `mov`. -/
def specAudioExtensions : List String :=
  ["flac", "m4a", "mp3", "mp4", "mpeg", "mpga", "oga", "ogg", "wav", "webm", "mov"]

/-- The MIME-type table of `generateTranscript`
(`src/unnamed/part_002` lines 308-320); note that it does contain
`mov`, unlike the matcher regexes. -/
def mimeTypes : List (String × String) :=
  [("flac", "audio/flac"), ("m4a", "audio/x-m4a"), ("mp3", "audio/mpeg"),
   ("mp4", "audio/mp4"), ("mpeg", "audio/mpeg"), ("mpga", "audio/mpeg"),
   ("oga", "audio/ogg"), ("ogg", "audio/ogg"), ("wav", "audio/wav"),
   ("webm", "audio/webm"), ("mov", "audio/quicktime")]

/-- Whether the audio matcher regexes `!\[\[(.+?\.(ext-alt))\]\]` /
`!\[.*?\]\((.+?\.(ext-alt))\)` accept a link with the given target
text: the target must end in a dot followed by one of the listed
extensions, with at least one character before the dot (the `.+?`). -/
def audioLinkTargetMatches (target : String) : Bool :=
  audioLinkExtensions.any fun ext =>
    decide (ext.data.length + 2 ≤ target.data.length) &&
      ('.' :: ext.data).isSuffixOf target.data

/-! ## Basic facts about line splitting and joining -/

theorem splitNl_nil : splitNl [] = [[]] := rfl

theorem splitNl_newline (rest : List Char) :
    splitNl ('\n' :: rest) = [] :: splitNl rest := by
  simp [splitNl]

theorem splitNl_ne_nil (s : List Char) : splitNl s ≠ [] := by
  cases s with
  | nil => simp [splitNl]
  | cons c rest =>
    rw [splitNl]
    split
    · simp
    · cases h : splitNl rest <;> simp

theorem splitNl_char (c : Char) (rest : List Char) (hc : c ≠ '\n')
    (h : List Char) (t : List (List Char)) (hst : splitNl rest = h :: t) :
    splitNl (c :: rest) = (c :: h) :: t := by
  rw [splitNl, if_neg hc, hst]

theorem exists_splitNl (rest : List Char) :
    ∃ h t, splitNl rest = h :: t :=
  List.exists_cons_of_ne_nil (splitNl_ne_nil rest)

theorem joinNl_splitNl (s : List Char) : joinNl (splitNl s) = s := by
  induction s with
  | nil => rfl
  | cons c rest ih =>
    obtain ⟨h, t, hst⟩ := exists_splitNl rest
    by_cases hc : c = '\n'
    · subst hc
      rw [splitNl_newline, hst, joinNl, ← hst, ih]
      simp
    · rw [splitNl_char c rest hc h t hst]
      cases t with
      | nil =>
        rw [hst] at ih
        simpa [joinNl] using congrArg (c :: ·) ih
      | cons y t' =>
        rw [hst] at ih
        rw [joinNl] at ih ⊢
        rw [← ih]
        simp

theorem modFirst_nil_append (xs : List (List Char)) :
    modFirst (fun l => [] ++ l) xs = xs := by
  cases xs <;> simp [modFirst]

theorem modLast_eq_front_append {α : Type} (f : α → α) :
    ∀ (xs : List α) (d : α), xs ≠ [] →
      modLast f xs = front xs ++ [f (lastGet xs d)] := by
  intro xs
  induction xs with
  | nil => intro d h; exact absurd rfl h
  | cons x t ih =>
    intro d _
    cases t with
    | nil => rfl
    | cons y t' =>
      rw [modLast, front, lastGet, ih d (by simp), List.cons_append]

theorem front_append_lastGet {α : Type} :
    ∀ (xs : List α) (d : α), xs ≠ [] → front xs ++ [lastGet xs d] = xs := by
  intro xs
  induction xs with
  | nil => intro d h; exact absurd rfl h
  | cons x t ih =>
    intro d _
    cases t with
    | nil => rfl
    | cons y t' =>
      rw [front, lastGet, List.cons_append, ih d (by simp)]

theorem front_length {α : Type} :
    ∀ (xs : List α), xs ≠ [] → (front xs).length = xs.length - 1 := by
  intro xs
  induction xs with
  | nil => intro h; exact absurd rfl h
  | cons x t ih =>
    intro _
    cases t with
    | nil => rfl
    | cons y t' =>
      rw [front, List.length_cons, List.length_cons, ih (by simp)]
      simp

/-! ## Facts about the insertion primitive and the cursor arithmetic -/

theorem insertText_nil (s : Doc × Nat × Nat) : insertText s [] = s := rfl

theorem insertText_cons (s : Doc × Nat × Nat) (c : Char) (rest : List Char) :
    insertText s (c :: rest) = insertText (stepIns s c) rest := rfl

theorem insertText_append (s : Doc × Nat × Nat) (a b : List Char) :
    insertText s (a ++ b) = insertText (insertText s a) b :=
  List.foldl_append stepIns s a b

theorem insertCharAt_at :
    ∀ (pre : Doc) (L : List Char) (post : Doc) (ch : Nat) (c : Char),
      insertCharAt (pre ++ L :: post) pre.length ch c
        = pre ++ (L.take ch ++ c :: L.drop ch) :: post := by
  intro pre
  induction pre with
  | nil => intro L post ch c; rfl
  | cons p pre' ih =>
    intro L post ch c
    rw [List.cons_append, List.length_cons, insertCharAt, ih, List.cons_append]

theorem splitLineAt_at :
    ∀ (pre : Doc) (L : List Char) (post : Doc) (ch : Nat),
      splitLineAt (pre ++ L :: post) pre.length ch
        = pre ++ L.take ch :: L.drop ch :: post := by
  intro pre
  induction pre with
  | nil => intro L post ch; rfl
  | cons p pre' ih =>
    intro L post ch
    rw [List.cons_append, List.length_cons, splitLineAt, ih, List.cons_append]

theorem insertText_pos :
    ∀ (content : List Char) (d : Doc) (l ch : Nat),
      (insertText (d, l, ch) content).2 = charAdvance (l, ch) content := by
  intro content
  induction content with
  | nil => intro d l ch; rfl
  | cons c rest ih =>
    intro d l ch
    rw [insertText_cons]
    by_cases hc : c = '\n'
    · have hs : stepIns (d, l, ch) c = (splitLineAt d l ch, l + 1, 0) := by
        simp [stepIns, hc]
      rw [hs, ih, charAdvance, if_pos hc]
    · have hs : stepIns (d, l, ch) c = (insertCharAt d l ch c, l, ch + 1) := by
        simp [stepIns, hc]
      rw [hs, ih, charAdvance, if_neg hc]

theorem sourceAdvance_cons_newline (p : Nat × Nat) (rest : List Char) :
    sourceAdvance p ('\n' :: rest) = sourceAdvance (p.1 + 1, 0) rest := by
  obtain ⟨h, t, hst⟩ := exists_splitNl rest
  cases t with
  | nil =>
    have c1 : ¬((([] : List Char) :: h :: []) : List (List Char)).length = 1 := by simp
    have c2 : (((h :: []) : List (List Char))).length = 1 := by simp
    simp only [sourceAdvance, splitNl_newline, hst]
    rw [if_neg c1, if_pos c2]
    have hl : lastGet ([] :: h :: []) ([] : List Char) = h := rfl
    rw [hl]
    simp only [Prod.mk.injEq, List.length_cons, List.length_nil, List.headD_cons]
    omega
  | cons y t' =>
    have c1 : ¬((([] : List Char) :: h :: y :: t') : List (List Char)).length = 1 := by
      simp
    have c2 : ¬(((h :: y :: t') : List (List Char))).length = 1 := by simp
    simp only [sourceAdvance, splitNl_newline, hst]
    rw [if_neg c1, if_neg c2]
    have hl : lastGet ([] :: h :: y :: t') ([] : List Char) = lastGet (h :: y :: t') [] :=
      rfl
    rw [hl]
    simp only [Prod.mk.injEq, List.length_cons]
    exact ⟨by omega, trivial⟩

theorem sourceAdvance_cons_char (p : Nat × Nat) (c : Char) (rest : List Char)
    (hc : c ≠ '\n') :
    sourceAdvance p (c :: rest) = sourceAdvance (p.1, p.2 + 1) rest := by
  obtain ⟨h, t, hst⟩ := exists_splitNl rest
  cases t with
  | nil =>
    have c1 : (((c :: h) :: []) : List (List Char)).length = 1 := by simp
    have c2 : (((h :: []) : List (List Char))).length = 1 := by simp
    simp only [sourceAdvance, splitNl_char c rest hc h [] hst, hst]
    rw [if_pos c1, if_pos c2]
    simp only [Prod.mk.injEq, List.length_cons, List.headD_cons]
    exact ⟨trivial, by omega⟩
  | cons y t' =>
    have c1 : ¬(((c :: h) :: y :: t') : List (List Char)).length = 1 := by simp
    have c2 : ¬(((h :: y :: t') : List (List Char))).length = 1 := by simp
    simp only [sourceAdvance, splitNl_char c rest hc h (y :: t') hst, hst]
    rw [if_neg c1, if_neg c2]
    have hl : lastGet ((c :: h) :: y :: t') ([] : List Char) = lastGet (h :: y :: t') [] :=
      rfl
    rw [hl]
    simp only [Prod.mk.injEq, List.length_cons]

theorem charAdvance_eq_sourceAdvance :
    ∀ (content : List Char) (p : Nat × Nat),
      charAdvance p content = sourceAdvance p content := by
  intro content
  induction content with
  | nil =>
    intro p
    simp [charAdvance, sourceAdvance, splitNl]
  | cons c rest ih =>
    intro p
    by_cases hc : c = '\n'
    · subst hc
      rw [charAdvance, if_pos rfl, ih]
      exact (sourceAdvance_cons_newline p rest).symm
    · rw [charAdvance, if_neg hc, ih]
      exact (sourceAdvance_cons_char p c rest hc).symm

theorem sourceAdvance_zero (l : Nat) (content : List Char) :
    sourceAdvance (l, 0) content
      = (l + (splitNl content).length - 1, (lastGet (splitNl content) []).length) := by
  obtain ⟨h, t, hst⟩ := exists_splitNl content
  cases t with
  | nil =>
    simp [sourceAdvance, hst, lastGet]
  | cons y t' =>
    simp only [sourceAdvance, hst, List.length_cons]
    rw [if_neg (by omega)]

theorem insertText_doc :
    ∀ (content : List Char) (pre post : Doc) (before after : List Char),
      (insertText (pre ++ (before ++ after) :: post, pre.length, before.length) content).1
        = pre ++ buildLines before content after ++ post := by
  intro content
  induction content with
  | nil =>
    intro pre post before after
    simp [insertText_nil, buildLines, splitNl, modLast, modFirst]
  | cons c rest ih =>
    intro pre post before after
    obtain ⟨h, t, hst⟩ := exists_splitNl rest
    by_cases hc : c = '\n'
    · subst hc
      rw [insertText_cons]
      have hstep : stepIns (pre ++ (before ++ after) :: post, pre.length, before.length) '\n'
          = ((pre ++ [before]) ++ ([] ++ after) :: post, (pre ++ [before]).length,
             ([] : List Char).length) := by
        simp only [stepIns, if_pos rfl]
        rw [splitLineAt_at, List.take_left, List.drop_left]
        simp
      rw [hstep, ih]
      rw [buildLines, buildLines, splitNl_newline, hst, modLast, modFirst,
        modFirst_nil_append]
      simp
    · rw [insertText_cons]
      have hstep : stepIns (pre ++ (before ++ after) :: post, pre.length, before.length) c
          = (pre ++ ((before ++ [c]) ++ after) :: post, pre.length,
             (before ++ [c]).length) := by
        simp only [stepIns, if_neg hc]
        rw [insertCharAt_at, List.take_left, List.drop_left]
        simp
      rw [hstep, ih]
      rw [buildLines, buildLines, splitNl_char c rest hc h t hst, hst]
      cases t with
      | nil => simp [modLast, modFirst]
      | cons y t' => simp [modLast, modFirst]

theorem writeFrag_eq_insertText (s : Doc × Nat × Nat) (f : List Char) :
    writeFrag s f = insertText s f := by
  obtain ⟨d, l, ch⟩ := s
  rw [writeFrag]
  have h2 : (insertText (d, l, ch) f).2 = sourceAdvance (l, ch) f := by
    rw [insertText_pos, charAdvance_eq_sourceAdvance]
  exact Prod.ext rfl h2.symm

theorem foldl_writeFrag :
    ∀ (frags : List (List Char)) (s : Doc × Nat × Nat),
      frags.foldl writeFrag s = insertText s frags.flatten := by
  intro frags
  induction frags with
  | nil => intro s; rfl
  | cons f rest ih =>
    intro s
    rw [List.foldl_cons, List.flatten_cons, insertText_append, ih,
      writeFrag_eq_insertText]

/-- C1: Stream reassembly fidelity.  For every document
`pre ++ L :: post`, insertion line `pre.length`, and every sequence of
stream fragments, the Streaming Document Writer of `generateText`
produces the document in which the lines of the concatenation `S` of
all fragments (split at its newlines) sit between a fresh blank
separator line and the preserved original content; joining those
written lines with newlines yields `S` exactly — no loss, duplication
or reordering of characters, for every chunking of the stream. -/
theorem stream_reassembly_fidelity (pre : Doc) (L : List Char) (post : Doc)
    (frags : List (List Char)) :
    runStreamWriter (pre ++ L :: post) pre.length frags
        = pre ++ [[]] ++ splitNl frags.flatten ++ L :: post
      ∧ joinNl (splitNl frags.flatten) = frags.flatten := by
  constructor
  · set S := frags.flatten with hS
    obtain ⟨h, t, hst⟩ := exists_splitNl S
    rw [runStreamWriter]
    -- Step 1: the initial separator newline inserted at (r, 0).
    have h1 : (insertText (pre ++ L :: post, pre.length, 0) ['\n']).1
        = pre ++ [[], L] ++ post := by
      have := insertText_doc ['\n'] pre post [] L
      simpa [buildLines, splitNl, modLast, modFirst] using this
    rw [h1]
    -- Step 2: the fragment loop, fused into one insertion of S.
    rw [foldl_writeFrag, ← hS]
    have hd2 : (insertText (pre ++ [[], L] ++ post, pre.length + 1, 0) S)
        = ((pre ++ [[]]) ++ modLast (fun l => l ++ L) (splitNl S) ++ post,
           charAdvance (pre.length + 1, 0) S) := by
      have hdoc := insertText_doc S (pre ++ [[]]) post [] L
      have hpos := insertText_pos S ((pre ++ [[]]) ++ ([] ++ L) :: post)
        (pre ++ [[]]).length ([] : List Char).length
      have hshape : (pre ++ [[]]) ++ ([] ++ L) :: post = pre ++ [[], L] ++ post := by simp
      have hlen : (pre ++ [[]]).length = pre.length + 1 := by simp
      rw [hshape, hlen] at hdoc hpos
      rw [buildLines, modFirst_nil_append] at hdoc
      have : ([] : List Char).length = 0 := rfl
      rw [this] at hdoc hpos
      exact Prod.ext hdoc hpos
    rw [hd2]
    -- Step 3: the trailing newline inserted at the final cursor.
    have hpos2 : charAdvance (pre.length + 1, 0) S
        = (pre.length + 1 + (splitNl S).length - 1, (lastGet (splitNl S) []).length) := by
      rw [charAdvance_eq_sourceAdvance, sourceAdvance_zero]
    set SS := splitNl S with hSS
    have hSSne : SS ≠ [] := splitNl_ne_nil S
    have hmod : modLast (fun l => l ++ L) SS = front SS ++ [lastGet SS [] ++ L] :=
      modLast_eq_front_append (fun l => l ++ L) SS [] hSSne
    have hflen : (front SS).length = SS.length - 1 := front_length SS hSSne
    have hSSlen : 1 ≤ SS.length := List.length_pos.mpr hSSne
    have hshape2 : (pre ++ [[]]) ++ modLast (fun l => l ++ L) SS ++ post
        = (pre ++ [[]] ++ front SS) ++ (lastGet SS [] ++ L) :: post := by
      rw [hmod]; simp
    have hlen2 : (pre ++ [[]] ++ front SS).length
        = pre.length + 1 + SS.length - 1 := by
      simp [hflen]; omega
    rw [hpos2, hshape2]
    have hfinal := insertText_doc ['\n'] (pre ++ [[]] ++ front SS) post (lastGet SS []) L
    rw [hlen2] at hfinal
    rw [hfinal]
    have hbuild : buildLines (lastGet SS []) ['\n'] L = [lastGet SS [], L] := by
      simp [buildLines, splitNl, modLast, modFirst]
    rw [hbuild]
    have hre : front SS ++ [lastGet SS []] = SS := front_append_lastGet SS [] hSSne
    calc (pre ++ [[]] ++ front SS) ++ [lastGet SS [], L] ++ post
        = pre ++ [[]] ++ (front SS ++ [lastGet SS []]) ++ L :: post := by simp
      _ = pre ++ [[]] ++ SS ++ L :: post := by rw [hre]
  · exact joinNl_splitNl frags.flatten

/-! ## SSE event buffering: properties -/

theorem extractEvents_none (buf : List Char) (h : findDelim buf = none) :
    extractEvents buf = ([], buf) := by
  unfold extractEvents
  split
  · rfl
  · rename_i i hi
    rw [h] at hi
    exact absurd hi (by simp)

theorem extractEvents_some (buf : List Char) (i : Nat) (h : findDelim buf = some i) :
    extractEvents buf
      = (buf.take i :: (extractEvents (buf.drop (i + 2))).1,
         (extractEvents (buf.drop (i + 2))).2) := by
  conv_lhs => unfold extractEvents
  split
  · rename_i hn
    rw [h] at hn
    exact absurd hn (by simp)
  · rename_i j hj
    rw [h] at hj
    cases hj
    rfl

theorem findDelim_append_some (b : List Char) :
    ∀ (a : List Char) (i : Nat), findDelim a = some i → findDelim (a ++ b) = some i := by
  intro a
  induction a with
  | nil => intro i h; simp [findDelim] at h
  | cons c1 rest ih =>
    intro i h
    cases rest with
    | nil => simp [findDelim] at h
    | cons c2 rest' =>
      rw [findDelim] at h
      rw [List.cons_append, List.cons_append, findDelim]
      by_cases hnn : c1 = '\n' ∧ c2 = '\n'
      · rw [if_pos hnn] at h
        rw [if_pos hnn]
        exact h
      · rw [if_neg hnn] at h
        rw [if_neg hnn]
        rcases Option.map_eq_some'.mp h with ⟨j, hj, hji⟩
        rw [← List.cons_append, ih j hj]
        simpa using hji

theorem findDelim_decomp :
    ∀ (a : List Char) (i : Nat), findDelim a = some i →
      a = a.take i ++ '\n' :: '\n' :: a.drop (i + 2) := by
  intro a
  induction a with
  | nil => intro i h; simp [findDelim] at h
  | cons c1 rest ih =>
    intro i h
    cases rest with
    | nil => simp [findDelim] at h
    | cons c2 rest' =>
      rw [findDelim] at h
      by_cases hnn : c1 = '\n' ∧ c2 = '\n'
      · rw [if_pos hnn] at h
        cases h
        obtain ⟨h1, h2⟩ := hnn
        subst h1; subst h2
        rfl
      · rw [if_neg hnn] at h
        rcases Option.map_eq_some'.mp h with ⟨j, hj, hji⟩
        subst hji
        have := ih j hj
        calc c1 :: c2 :: rest'
            = c1 :: ((c2 :: rest').take j ++ '\n' :: '\n' :: (c2 :: rest').drop (j + 2)) := by
              rw [← this]
          _ = (c1 :: c2 :: rest').take (j + 1)
                ++ '\n' :: '\n' :: (c1 :: c2 :: rest').drop (j + 1 + 2) := by
              rw [List.take_succ_cons, List.cons_append]
              rfl

theorem extractEvents_append (b : List Char) (a : List Char) :
    extractEvents (a ++ b)
      = ((extractEvents a).1 ++ (extractEvents ((extractEvents a).2 ++ b)).1,
         (extractEvents ((extractEvents a).2 ++ b)).2) := by
  have H : ∀ (n : Nat) (a : List Char), a.length = n →
      extractEvents (a ++ b)
        = ((extractEvents a).1 ++ (extractEvents ((extractEvents a).2 ++ b)).1,
           (extractEvents ((extractEvents a).2 ++ b)).2) := by
    intro n
    induction n using Nat.strong_induction_on with
    | _ n ihn =>
      intro a ha
      cases hfd : findDelim a with
      | none =>
        rw [extractEvents_none a hfd]
        simp
      | some i =>
        have hlen : i + 2 ≤ a.length := findDelim_some_bound a i hfd
        rw [extractEvents_some a i hfd,
          extractEvents_some (a ++ b) i (findDelim_append_some b a i hfd)]
        have hdrop : (a ++ b).drop (i + 2) = a.drop (i + 2) ++ b :=
          List.drop_append_of_le_length hlen
        have htake : (a ++ b).take i = a.take i :=
          List.take_append_of_le_length (by omega)
        rw [hdrop, htake]
        have hrec := ihn ((a.drop (i + 2)).length)
          (by rw [List.length_drop]; omega) (a.drop (i + 2)) rfl
        rw [hrec]
        simp

  exact H a.length a rfl

theorem extractEvents_leftover (a : List Char) :
    findDelim (extractEvents a).2 = none := by
  have H : ∀ (n : Nat) (a : List Char), a.length = n →
      findDelim (extractEvents a).2 = none := by
    intro n
    induction n using Nat.strong_induction_on with
    | _ n ihn =>
      intro a ha
      cases hfd : findDelim a with
      | none => rw [extractEvents_none a hfd]; exact hfd
      | some i =>
        have hlen : i + 2 ≤ a.length := findDelim_some_bound a i hfd
        rw [extractEvents_some a i hfd]
        exact ihn ((a.drop (i + 2)).length) (by rw [List.length_drop]; omega)
          (a.drop (i + 2)) rfl
  exact H a.length a rfl

theorem extractEvents_reconstruct (a : List Char) :
    eventsJoin (extractEvents a) = a := by
  have H : ∀ (n : Nat) (a : List Char), a.length = n →
      eventsJoin (extractEvents a) = a := by
    intro n
    induction n using Nat.strong_induction_on with
    | _ n ihn =>
      intro a ha
      cases hfd : findDelim a with
      | none => rw [extractEvents_none a hfd]; rfl
      | some i =>
        have hlen : i + 2 ≤ a.length := findDelim_some_bound a i hfd
        rw [extractEvents_some a i hfd]
        have hrec := ihn ((a.drop (i + 2)).length) (by rw [List.length_drop]; omega)
          (a.drop (i + 2)) rfl
        rw [eventsJoin] at hrec ⊢
        simp only [List.map_cons, List.flatten_cons, List.append_assoc]
        rw [hrec]
        conv_rhs => rw [findDelim_decomp a i hfd]
        simp

  exact H a.length a rfl

theorem foldl_feedStep :
    ∀ (chunks : List (List Char)) (a : List Char),
      chunks.foldl feedStep (extractEvents a) = extractEvents (a ++ chunks.flatten) := by
  intro chunks
  induction chunks with
  | nil => intro a; simp
  | cons c cs ih =>
    intro a
    rw [List.foldl_cons]
    have hstep : feedStep (extractEvents a) c = extractEvents (a ++ c) := by
      rw [feedStep, extractEvents_append c a]
    rw [hstep, ih (a ++ c)]
    simp

/-- C10 (implicit): SSE event-buffering invariant.  Feeding the
streaming read loop any chunking of the byte stream extracts exactly
the complete events of the full stream — the result is independent of
the chunk boundaries (first conjunct); the retained accumulator never
contains an event delimiter, so an incomplete trailing event is never
handed to the parser (second conjunct); and the extracted events are
precisely the successive prefixes of the buffer terminated by the
`"\n\n"` delimiter, followed by the retained remainder (third
conjunct). -/
theorem sse_event_buffering (chunks : List (List Char)) :
    feedChunks chunks = extractEvents chunks.flatten
    ∧ findDelim (feedChunks chunks).2 = none
    ∧ eventsJoin (feedChunks chunks) = chunks.flatten := by
  have h0 : (([], []) : List (List Char) × List Char) = extractEvents [] :=
    (extractEvents_none [] rfl).symm
  have h1 : feedChunks chunks = extractEvents chunks.flatten := by
    rw [feedChunks, h0, foldl_feedStep]
    rfl
  refine ⟨h1, ?_, ?_⟩
  · rw [h1]; exact extractEvents_leftover _
  · rw [h1]; exact extractEvents_reconstruct _

/-! ## Insertion-point computation (C3) -/

theorem splitLineAt_whole (doc : Doc) (line : Nat) (hlt : line < doc.length) :
    splitLineAt doc line (doc.getD line []).length
      = doc.take (line + 1) ++ [[]] ++ doc.drop (line + 1) := by
  have hget : doc.getD line [] = doc[line] := by
    rw [List.getD_eq_getElem?_getD, List.getElem?_eq_getElem hlt]
    rfl
  have hdec : doc = doc.take line ++ doc[line] :: doc.drop (line + 1) := by
    conv_lhs => rw [← List.take_append_drop line doc]
    rw [List.drop_eq_getElem_cons hlt]
  have hlen : (doc.take line).length = line := by
    rw [List.length_take]; omega
  calc splitLineAt doc line (doc.getD line []).length
      = splitLineAt (doc.take line ++ doc[line] :: doc.drop (line + 1))
          (doc.take line).length (doc[line]).length := by
        rw [hlen, hget, ← hdec]
    _ = doc.take line
          ++ (doc[line]).take (doc[line]).length
          :: (doc[line]).drop (doc[line]).length :: doc.drop (line + 1) :=
        splitLineAt_at (doc.take line) doc[line] (doc.drop (line + 1)) (doc[line]).length
    _ = doc.take line ++ doc[line] :: [] :: doc.drop (line + 1) := by
        rw [List.take_length, List.drop_length]
    _ = doc.take (line + 1) ++ [[]] ++ doc.drop (line + 1) := by
        rw [List.take_succ, List.getElem?_eq_getElem hlt]
        simp only [Option.toList_some, List.append_assoc, List.cons_append,
          List.singleton_append, List.nil_append]

/-- Counterexample to C3 as stated: in the document
`["a", "b", ""]` with invocation line `0`, scanning forward for the
first blank line (the spec's rule) yields line `2`, but
`getNextNewLine` uses line `1` (inserting a fresh empty line right
after the invocation line instead of scanning). -/
theorem insertion_point_counterexample :
    (getNextNewLine [['a'], ['b'], []] 0).2 = 1
    ∧ scanForwardInsertionLine [['a'], ['b'], []] 0 = 2
    ∧ (1 : Nat) ≠ 2 := by
  decide

/-- C3 (amended): the insertion start line used by the streaming writer
is always `line + 1`; when the invocation line is the last line or the
next line is non-blank, a `'\n'` is first inserted at the end of the
invocation line, so the used line is always blank and the writer never
overwrites a pre-existing non-blank line, and the document is either
unchanged or has exactly one fresh empty line inserted at `line + 1`. -/
theorem insertion_point_never_overwrites (doc : Doc) (line : Nat)
    (hlt : line < doc.length) :
    (getNextNewLine doc line).2 = line + 1
    ∧ isBlankLine ((getNextNewLine doc line).1.getD (line + 1) []) = true
    ∧ ((getNextNewLine doc line).1 = doc
        ∨ (getNextNewLine doc line).1
            = doc.take (line + 1) ++ [[]] ++ doc.drop (line + 1)) := by
  have hins : (insertText (doc, line, (doc.getD line []).length) ['\n']).1
      = doc.take (line + 1) ++ [[]] ++ doc.drop (line + 1) := by
    rw [insertText_cons, insertText_nil]
    show (stepIns (doc, line, (doc.getD line []).length) '\n').1 = _
    rw [stepIns, if_pos rfl]
    exact splitLineAt_whole doc line hlt
  have htlen : (doc.take (line + 1)).length = line + 1 := by
    rw [List.length_take]; omega
  have hblank :
      isBlankLine ((doc.take (line + 1) ++ [[]] ++ doc.drop (line + 1)).getD (line + 1) [])
        = true := by
    have h1 : (doc.take (line + 1) ++ [[]] ++ doc.drop (line + 1))[line + 1]?
        = some [] := by
      rw [List.append_assoc, List.getElem?_append_right (by omega)]
      simp [htlen]
    rw [List.getD_eq_getElem?_getD, h1]
    rfl
  simp only [getNextNewLine]
  split
  · exact ⟨rfl, by rw [hins]; exact hblank, Or.inr hins⟩
  · rename_i hcond
    refine ⟨rfl, ?_, Or.inl rfl⟩
    simp only [Bool.or_eq_true, not_or, beq_iff_eq] at hcond
    obtain ⟨h1, h2⟩ := hcond
    have hlt2 : line + 1 < doc.length := by omega
    rw [List.getElem?_eq_getElem hlt2] at h2
    simp only [Bool.not_eq_true] at h2
    have hbl : isBlankLine doc[line + 1] = true := by
      cases hb : isBlankLine doc[line + 1]
      · rw [hb] at h2; simp at h2
      · rfl
    rw [List.getD_eq_getElem?_getD, List.getElem?_eq_getElem hlt2]
    exact hbl

/-- Witness for C3 (amended) at a concrete document. -/
theorem insertion_point_never_overwrites_witness :
    (getNextNewLine [['a'], ['b'], []] 0).2 = 0 + 1
    ∧ isBlankLine ((getNextNewLine [['a'], ['b'], []] 0).1.getD (0 + 1) []) = true :=
  ⟨(insertion_point_never_overwrites [['a'], ['b'], []] 0 (by decide)).1,
   (insertion_point_never_overwrites [['a'], ['b'], []] 0 (by decide)).2.1⟩

/-! ## Single-flight guard (C2) -/

/-- C2: Single-flight guard.  For every plugin state and every outcome
of the generation pipeline: when the `writing` flag is set, each of the
four generation commands aborts with an "in progress" notice and leaves
the state (flag and document) exactly unchanged, never running the
pipeline; when the flag is clear, each command resets the flag to
`false` on every exit path (success and error). -/
theorem single_flight_guard (st : PluginState) (gen : GenOutcome)
    (findResult : Except String String) (path : String)
    (fileTypeOk fileExists : Bool) :
    (st.writing = true →
      commandGenerateText st gen = (st, "Generator is already in progress.")
      ∧ commandGenerateTextWithPdf st (Except.ok path) gen
          = (st, "Generator is already in progress.")
      ∧ commandGenerateImage st gen = (st, "Generator is already in progress.")
      ∧ commandGenerateTranscript st (Except.ok path) true true gen
          = (st, "Already in progress.")
      ∧ (commandGenerateTextWithPdf st findResult gen).1 = st
      ∧ (commandGenerateTranscript st findResult fileTypeOk fileExists gen).1 = st)
    ∧ (st.writing = false →
      (commandGenerateText st gen).1.writing = false
      ∧ (commandGenerateTextWithPdf st findResult gen).1.writing = false
      ∧ (commandGenerateImage st gen).1.writing = false
      ∧ (commandGenerateTranscript st findResult fileTypeOk fileExists gen).1.writing
          = false) := by
  constructor
  · intro hw
    cases findResult <;> cases gen <;> cases fileTypeOk <;> cases fileExists <;>
      simp [commandGenerateText, commandGenerateTextWithPdf, commandGenerateImage,
        commandGenerateTranscript, hw]
  · intro hw
    cases findResult <;> cases gen <;> cases fileTypeOk <;> cases fileExists <;>
      simp [commandGenerateText, commandGenerateTextWithPdf, commandGenerateImage,
        commandGenerateTranscript, hw]

/-- Witness for C2: a busy invocation aborts unchanged; a free
invocation ends with the flag cleared. -/
theorem single_flight_guard_witness :
    commandGenerateText ⟨true, ["doc"]⟩ (GenOutcome.ok ["changed"])
        = (⟨true, ["doc"]⟩, "Generator is already in progress.")
    ∧ (commandGenerateText ⟨false, ["doc"]⟩ (GenOutcome.err ["partial"] "boom")).1.writing
        = false :=
  ⟨((single_flight_guard ⟨true, ["doc"]⟩ (GenOutcome.ok ["changed"])
      (Except.ok "f.pdf") "f.pdf" true true).1 rfl).1,
   ((single_flight_guard ⟨false, ["doc"]⟩ (GenOutcome.err ["partial"] "boom")
      (Except.ok "f.pdf") "f.pdf" true true).2 rfl).1⟩

/-! ## Resolver nearest-match (C4) -/

theorem closestStep_loop (cursorOffset : Nat) :
    ∀ (rest done : List LinkMatch) (c : LinkMatch),
      (∃ pre post, done = pre ++ c :: post
        ∧ ∀ x ∈ pre, offsetDist c.index cursorOffset < offsetDist x.index cursorOffset) →
      (∀ x ∈ done, offsetDist c.index cursorOffset ≤ offsetDist x.index cursorOffset) →
      ∃ m, rest.foldl (closestStep cursorOffset) (some c) = some m
        ∧ (∀ x ∈ done ++ rest,
            offsetDist m.index cursorOffset ≤ offsetDist x.index cursorOffset)
        ∧ ∃ pre post, done ++ rest = pre ++ m :: post
          ∧ ∀ x ∈ pre, offsetDist m.index cursorOffset < offsetDist x.index cursorOffset := by
  intro rest
  induction rest with
  | nil =>
    intro done c hdec hmin
    exact ⟨c, rfl, by simpa using hmin, by simpa using hdec⟩
  | cons m rest' ih =>
    intro done c hdec hmin
    rw [List.foldl_cons]
    by_cases hlt : offsetDist m.index cursorOffset < offsetDist c.index cursorOffset
    · have hstep : closestStep cursorOffset (some c) m = some m := by
        simp [closestStep, hlt]
      rw [hstep]
      have hdec' : ∃ pre post, done ++ [m] = pre ++ m :: post
          ∧ ∀ x ∈ pre, offsetDist m.index cursorOffset < offsetDist x.index cursorOffset :=
        ⟨done, [], rfl, fun x hx => lt_of_lt_of_le hlt (hmin x hx)⟩
      have hmin' : ∀ x ∈ done ++ [m],
          offsetDist m.index cursorOffset ≤ offsetDist x.index cursorOffset := by
        intro x hx
        rcases List.mem_append.mp hx with hx | hx
        · exact le_of_lt (lt_of_lt_of_le hlt (hmin x hx))
        · simp only [List.mem_singleton] at hx
          subst hx
          exact le_refl _
      obtain ⟨m', h1, h2, h3⟩ := ih (done ++ [m]) m hdec' hmin'
      have heq : (done ++ [m]) ++ rest' = done ++ m :: rest' := by simp
      rw [heq] at h2 h3
      exact ⟨m', h1, h2, h3⟩
    · have hstep : closestStep cursorOffset (some c) m = some c := by
        simp [closestStep, hlt]
      rw [hstep]
      obtain ⟨pre, post, hdeq, hpre⟩ := hdec
      have hdec' : ∃ pre' post', done ++ [m] = pre' ++ c :: post'
          ∧ ∀ x ∈ pre', offsetDist c.index cursorOffset < offsetDist x.index cursorOffset :=
        ⟨pre, post ++ [m], by rw [hdeq]; simp, hpre⟩
      have hmin' : ∀ x ∈ done ++ [m],
          offsetDist c.index cursorOffset ≤ offsetDist x.index cursorOffset := by
        intro x hx
        rcases List.mem_append.mp hx with hx | hx
        · exact hmin x hx
        · simp only [List.mem_singleton] at hx
          subst hx
          omega
      obtain ⟨m', h1, h2, h3⟩ := ih (done ++ [m]) c hdec' hmin'
      have heq : (done ++ [m]) ++ rest' = done ++ m :: rest' := by simp
      rw [heq] at h2 h3
      exact ⟨m', h1, h2, h3⟩

/-- C4: Resolver nearest-match.  For every nonempty global list of
matches (all matchers' matches, in found order) the selection loop of
`findFilePath` returns a match whose start offset has minimum absolute
distance to the cursor offset among all matches, and every match found
before it is strictly farther — ties are broken by the first match
found. -/
theorem resolver_nearest_match (allMatches : List LinkMatch) (cursorOffset : Nat)
    (hne : allMatches ≠ []) :
    ∃ m, findFilePath allMatches cursorOffset = some m
      ∧ (∀ x ∈ allMatches, offsetDist m.index cursorOffset ≤ offsetDist x.index cursorOffset)
      ∧ ∃ pre post, allMatches = pre ++ m :: post
        ∧ ∀ x ∈ pre, offsetDist m.index cursorOffset < offsetDist x.index cursorOffset := by
  obtain ⟨m0, rest, rfl⟩ := List.exists_cons_of_ne_nil hne
  rw [findFilePath, List.foldl_cons]
  have hstep : closestStep cursorOffset none m0 = some m0 := rfl
  rw [hstep]
  have := closestStep_loop cursorOffset rest [m0] m0 ⟨[], [], rfl, by simp⟩
    (by simp)
  simpa using this

/-- Witness for C4: with matches at offsets 10, 50, 90 and the cursor
at offset 60, the match at offset 50 is selected, and it is at minimum
distance. -/
theorem resolver_nearest_match_witness :
    findFilePath [⟨10, "a"⟩, ⟨50, "b"⟩, ⟨90, "c"⟩] 60 = some ⟨50, "b"⟩
    ∧ ∃ m, findFilePath [⟨10, "a"⟩, ⟨50, "b"⟩, ⟨90, "c"⟩] 60 = some m
      ∧ ∀ x ∈ [(⟨10, "a"⟩ : LinkMatch), ⟨50, "b"⟩, ⟨90, "c"⟩],
          offsetDist m.index 60 ≤ offsetDist x.index 60 := by
  refine ⟨by decide, ?_⟩
  obtain ⟨m, h1, h2, h3⟩ :=
    resolver_nearest_match [⟨10, "a"⟩, ⟨50, "b"⟩, ⟨90, "c"⟩] 60 (by simp)
  exact ⟨m, h1, h2⟩

/-! ## Context precedence (C5) -/

/-- C5: Context precedence.  Whenever an explicit (nonempty)
reference-document context is supplied to `generateText`, the messages
sent are exactly the context entry as the single system message
followed by the user prompt, and `searchText` is never invoked — even
when search augmentation is enabled in settings. -/
theorem context_precedence (c : String) (useSearchEngine : Bool)
    (searchOutcome : Except String String) (finalPrompt : String) (hc : c ≠ "") :
    generateTextMessages (some c) useSearchEngine searchOutcome finalPrompt
      = ([⟨"system", c⟩, ⟨"user", finalPrompt⟩], false) := by
  have ht : ctxTruthy (some c) = true := by
    simp [ctxTruthy, hc]
  simp only [generateTextMessages]
  rw [if_pos ht]
  rfl

/-- Witness for C5: a PDF context suppresses the enabled search engine. -/
theorem context_precedence_witness :
    generateTextMessages (some "Page 1: The sky is blue.") true
        (Except.ok "RESULTS") "Summarize this"
      = ([⟨"system", "Page 1: The sky is blue."⟩, ⟨"user", "Summarize this"⟩], false) :=
  context_precedence "Page 1: The sky is blue." true (Except.ok "RESULTS")
    "Summarize this" (by decide)

/-! ## Prompt-enhancer fallback (C6) -/

/-- Counterexample to C6 as stated: with Prompt Perfect enabled, a
failing enhancement call makes `generateImage` propagate the failure
(there is no try/catch around `improvePrompt` in `generateImage`), so
that generation request is aborted by the enhancer failure rather than
continuing with the original prompt. -/
theorem prompt_enhancer_counterexample :
    generateImagePrompt true (Except.error "Prompt Perfect API: failure") "a cat"
      = Except.error "Prompt Perfect API: failure" := rfl

/-- C6 (amended): for every text-generation request with prompt
enhancement enabled, an enhancer failure falls back to the original,
unmodified prompt and never aborts the text generation (the step is
total); image generation, by contrast, propagates the enhancer failure
and is aborted by it. -/
theorem prompt_enhancer_fallback (e prompt : String)
    (improveResult : Except String String) :
    generateTextFinalPrompt true (Except.error e) prompt = prompt
    ∧ generateTextFinalPrompt false improveResult prompt = prompt
    ∧ generateImagePrompt true (Except.error e) prompt = Except.error e :=
  ⟨rfl, rfl, rfl⟩

/-! ## Credential and prompt gating (C7) -/

/-- Counterexample to C7 as stated: a transcription call with a valid
API key and an empty audio buffer (length 0) passes validation
(`generateTranscriptGate … = none`), so the network request is issued —
the audio buffer is never checked for emptiness. -/
theorem credential_gate_counterexample :
    generateTranscriptGate 0 "sk-test" = none := by decide

/-- C7 (amended): text and image generation fail with a descriptive
error before any network request when the prompt or the primary API
credential is empty; transcription fails fast only on an empty
credential — an empty audio buffer is not rejected and the request
proceeds. -/
theorem credential_prompt_gating (p k : String) (n : Nat) :
    (jsTrimEmpty p = true → (generateTextGate p k).isSome = true)
    ∧ (jsTrimEmpty k = true → (generateTextGate p k).isSome = true)
    ∧ (p = "" → (generateImageGate p k).isSome = true)
    ∧ (k = "" → (generateImageGate p k).isSome = true)
    ∧ (jsTrimEmpty k = true → (generateTranscriptGate n k).isSome = true)
    ∧ (jsTrimEmpty k = false → generateTranscriptGate n k = none) := by
  refine ⟨?_, ?_, ?_, ?_, ?_, ?_⟩
  · intro h
    simp [generateTextGate, h]
  · intro h
    simp only [generateTextGate]
    split
    · rfl
    · have hc : (k == "" || jsTrimEmpty k) = true := by simp [h]
      rw [if_pos hc]
      rfl
  · intro h
    subst h
    have hc : ("" : String).length < 1 := by decide
    simp only [generateImageGate]
    rw [if_pos hc]
    rfl
  · intro h
    subst h
    simp only [generateImageGate]
    split
    · rfl
    · have hc : ("" : String).length ≤ 1 := by decide
      rw [if_pos hc]
      rfl
  · intro h
    simp [generateTranscriptGate, h]
  · intro h
    have hk : (k == "") = false := by
      cases hkk : k == "" with
      | false => rfl
      | true =>
        have hke : k = "" := by simpa using hkk
        subst hke
        exact absurd h (by decide)
    simp [generateTranscriptGate, hk, h]

/-- Witness for C7 (amended): the gates evaluated at concrete inputs. -/
theorem credential_prompt_gating_witness :
    (generateTextGate "" "sk-test").isSome = true
    ∧ (generateTextGate "hello" "").isSome = true
    ∧ (generateImageGate "" "sk-test").isSome = true
    ∧ generateTranscriptGate 0 "sk-test" = none :=
  ⟨(credential_prompt_gating "" "sk-test" 0).1 (by decide),
   (credential_prompt_gating "hello" "" 0).2.1 (by decide),
   (credential_prompt_gating "" "sk-test" 0).2.2.1 rfl,
   (credential_prompt_gating "hello" "sk-test" 0).2.2.2.2.2 (by decide)⟩

/-! ## Search credential gating (C8) -/

/-- Counterexample to C8 as stated: with search augmentation enabled
and no search API key configured (`""`), `searchText` performs the
key-less public Bing search — a search network call — and the context
assembly proceeds normally with the search invoked; no
missing-credential error is raised anywhere on this path. -/
theorem search_gating_counterexample :
    searchText "" = SearchRoute.withoutKey
    ∧ (generateTextMessages none true (Except.ok "RESULTS") "p").2 = true := by
  constructor
  · decide
  · rfl

/-- C8 (amended): when the configured Bing search key has length at
most one (in particular when it is empty), `searchText` falls back to
the key-less public Bing search instead of failing; a search network
request is still issued and no missing-credential error is raised.  The
keyed API route is taken only for keys longer than one character. -/
theorem search_without_key (k : String) (hk : k.length ≤ 1) :
    searchText k = SearchRoute.withoutKey := by
  have hc : ¬(k.length > 1) := by omega
  simp only [searchText]
  rw [if_neg hc]

/-- Witness for C8 (amended) at the empty key. -/
theorem search_without_key_witness :
    searchText "" = SearchRoute.withoutKey :=
  search_without_key "" (by decide)

/-! ## Audio extension allow-list (C9) -/

/-- Counterexample to C9 as stated: `mov` is in the claimed allow-list
(and even in the transcription client's MIME-type table), but the audio
link matchers do not match a `mov` link: their extension alternation
has only the ten entries `flac|m4a|mp3|mp4|mpeg|mpga|oga|ogg|wav|webm`. -/
theorem audio_allowlist_counterexample :
    "mov" ∈ specAudioExtensions
    ∧ (mimeTypes.lookup "mov").isSome = true
    ∧ audioLinkTargetMatches "a.mov" = false := by
  decide

/-- C9 (amended): the audio link matchers accept exactly the ten
extensions `flac, m4a, mp3, mp4, mpeg, mpga, oga, ogg, wav, webm`:
every link target of the form `stem.ext` with a nonempty stem and
`ext` in that list is matched, a matched target always ends in a dot
followed by one of the listed extensions, and `mov` is not in the
list (it appears only in the MIME-type table of `generateTranscript`). -/
theorem audio_matcher_extensions (stem : List Char) (ext : String)
    (hstem : stem ≠ []) (hext : ext ∈ audioLinkExtensions) :
    audioLinkTargetMatches (String.mk (stem ++ '.' :: ext.data)) = true
    ∧ (∀ t : String, audioLinkTargetMatches t = true →
        ∃ e ∈ audioLinkExtensions, ('.' :: e.data).isSuffixOf t.data = true)
    ∧ "mov" ∉ audioLinkExtensions := by
  refine ⟨?_, ?_, by decide⟩
  · rw [audioLinkTargetMatches]
    apply List.any_eq_true.mpr
    refine ⟨ext, hext, ?_⟩
    have hlen : ext.data.length + 2 ≤ (String.mk (stem ++ '.' :: ext.data)).data.length := by
      show ext.data.length + 2 ≤ (stem ++ '.' :: ext.data).length
      rw [List.length_append]
      have := List.length_pos.mpr hstem
      simp only [List.length_cons]
      omega
    have hsuf : (('.' :: ext.data)).isSuffixOf (String.mk (stem ++ '.' :: ext.data)).data
        = true := by
      rw [List.isSuffixOf_iff_suffix]
      exact List.suffix_append stem ('.' :: ext.data)
    rw [hsuf, decide_eq_true hlen]
    rfl
  · intro t ht
    rcases List.any_eq_true.mp ht with ⟨e, he, hpe⟩
    refine ⟨e, he, ?_⟩
    simp only [Bool.and_eq_true] at hpe
    exact hpe.2

/-- Witness for C9 (amended): the matcher accepts `song.mp3`. -/
theorem audio_matcher_extensions_witness :
    audioLinkTargetMatches (String.mk (['s', 'o', 'n', 'g'] ++ '.' :: "mp3".data))
      = true :=
  (audio_matcher_extensions ['s', 'o', 'n', 'g'] "mp3" (by decide) (by decide)).1

end AICommander
